import Mathlib

/-!
Shallow embedding of cvardump (src/src/main.rs).

The program extracts cvar records from the text output of the Source engine
command cvarlist (function extract_cvars) and serializes them as CSV rows
(function write_cvar_csv).  Rust strings are modelled as their character
sequences (List Char).  The three regular expressions of extract_cvars are
embedded as explicit backtracking matchers with the leftmost-first (lazy
groups try the shortest extension first, the first alternative of an
alternation is preferred) match semantics of the Rust regex crate.
-/

namespace Cvardump

/-- Character class of the regex escape for whitespace: the Unicode
White_Space code points, which is what the Rust regex crate matches for
that escape in its default Unicode mode. -/
def isWsp (c : Char) : Bool :=
  let n := c.toNat
  (0x09 ≤ n && n ≤ 0x0D) || n == 0x20 || n == 0x85 || n == 0xA0 || n == 0x1680 ||
  (0x2000 ≤ n && n ≤ 0x200A) || n == 0x2028 || n == 0x2029 || n == 0x202F ||
  n == 0x205F || n == 0x3000

/-- Matches a maximal run of whitespace followed by the two-character
delimiter colon-space (the regex fragment of whitespace-star and a literal
colon-space in regex_cvar, main.rs line 138), returning the remainder.
The greedy whitespace-star is deterministic here: a shorter run would leave
a whitespace character where the colon is required, so the maximal run is
the only candidate. -/
def chompColonSp (cs : List Char) : Option (List Char) :=
  match cs.dropWhile isWsp with
  | ':' :: ' ' :: r => some r
  | _ => none

/-- Like chompColonSp but for the third delimiter of regex_cvar, which is a
bare colon with no trailing space. -/
def chompColon (cs : List Char) : Option (List Char) :=
  match cs.dropWhile isWsp with
  | ':' :: r => some r
  | _ => none

/-- The tail of regex_cvar after the third colon: an alternation of a
space followed by the greedy dot-star capture (group 4), or nothing, then
the end anchor.  The first alternative is preferred; the dot of the regex
does not match a newline, so a newline in the remainder defeats both
alternatives (the end anchor cannot be reached). -/
def tailOk : List Char → Option (Option (List Char))
  | [] => some none
  | ' ' :: d => if '\n' ∈ d then none else some (some d)
  | _ => none

/-- Segment 3 of regex_cvar with its delimiter and tail: the lazy capture
group 3 (shortest extension first, one character at a time, never across a
newline since the dot does not match one), then whitespace-star, a bare
colon, and the optional description tail.  Returns (capture 3, capture 4). -/
def seg3 : List Char → Option (List Char × Option (List Char))
  | [] =>
    match (chompColon []).bind tailOk with
    | some d => some ([], d)
    | none => none
  | ch :: cs =>
    match (chompColon (ch :: cs)).bind tailOk with
    | some d => some ([], d)
    | none =>
      if ch = '\n' then none
      else (seg3 cs).map (fun p => (ch :: p.1, p.2))

/-- Segment 2 of regex_cvar and everything after it: the lazy capture
group 2, whitespace-star, the colon-space delimiter, then seg3.  On failure
of the rest of the pattern the lazy group is extended by one character
(backtracking). -/
def seg2 : List Char → Option (List Char × List Char × Option (List Char))
  | [] =>
    match (chompColonSp []).bind seg3 with
    | some p => some ([], p)
    | none => none
  | ch :: cs =>
    match (chompColonSp (ch :: cs)).bind seg3 with
    | some p => some ([], p)
    | none =>
      if ch = '\n' then none
      else (seg2 cs).map (fun p => (ch :: p.1, p.2))

/-- The full record-line regex regex_cvar of main.rs line 138: anchored at
both ends, four lazy/greedy capture groups as in seg2/seg3.  Returns the
captures (group 1, group 2, group 3, optional group 4). -/
def regexCvar : List Char → Option (List Char × List Char × List Char × Option (List Char))
  | [] =>
    match (chompColonSp []).bind seg2 with
    | some p => some ([], p)
    | none => none
  | ch :: cs =>
    match (chompColonSp (ch :: cs)).bind seg2 with
    | some p => some ([], p)
    | none =>
      if ch = '\n' then none
      else (regexCvar cs).map (fun p => (ch :: p.1, p.2))

/-- The fixed literal suffix of the summary-count line regex regex_count
(main.rs line 142). -/
def countSuffix : List Char := (" total convars/concommands").toList

/-- The code point ranges of the Unicode general category Nd
(Decimal_Number), Unicode 14.0: every script's ten digits form one
contiguous run.  This is the character class the Rust regex crate matches
for the digit escape in its default Unicode mode. -/
def ndRanges : List (Nat × Nat) :=
  [(0x30, 0x39), (0x660, 0x669), (0x6F0, 0x6F9), (0x7C0, 0x7C9),
   (0x966, 0x96F), (0x9E6, 0x9EF), (0xA66, 0xA6F), (0xAE6, 0xAEF),
   (0xB66, 0xB6F), (0xBE6, 0xBEF), (0xC66, 0xC6F), (0xCE6, 0xCEF),
   (0xD66, 0xD6F), (0xDE6, 0xDEF), (0xE50, 0xE59), (0xED0, 0xED9),
   (0xF20, 0xF29), (0x1040, 0x1049), (0x1090, 0x1099), (0x17E0, 0x17E9),
   (0x1810, 0x1819), (0x1946, 0x194F), (0x19D0, 0x19D9), (0x1A80, 0x1A89),
   (0x1A90, 0x1A99), (0x1B50, 0x1B59), (0x1BB0, 0x1BB9), (0x1C40, 0x1C49),
   (0x1C50, 0x1C59), (0xA620, 0xA629), (0xA8D0, 0xA8D9), (0xA900, 0xA909),
   (0xA9D0, 0xA9D9), (0xA9F0, 0xA9F9), (0xAA50, 0xAA59), (0xABF0, 0xABF9),
   (0xFF10, 0xFF19), (0x104A0, 0x104A9), (0x10D30, 0x10D39),
   (0x11066, 0x1106F), (0x110F0, 0x110F9), (0x11136, 0x1113F),
   (0x111D0, 0x111D9), (0x112F0, 0x112F9), (0x11450, 0x11459),
   (0x114D0, 0x114D9), (0x11650, 0x11659), (0x116C0, 0x116C9),
   (0x11730, 0x11739), (0x118E0, 0x118E9), (0x11950, 0x11959),
   (0x11C50, 0x11C59), (0x11D50, 0x11D59), (0x11DA0, 0x11DA9),
   (0x16A60, 0x16A69), (0x16AC0, 0x16AC9), (0x16B50, 0x16B59),
   (0x1D7CE, 0x1D7FF), (0x1E140, 0x1E149), (0x1E2F0, 0x1E2F9),
   (0x1E950, 0x1E959), (0x1FBF0, 0x1FBF9)]

/-- Character class of the regex digit escape: the Unicode decimal digits
(general category Nd).  Strictly larger than the ASCII digits; the
difference matters because the Rust usize parser accepts only ASCII. -/
def isNd (c : Char) : Bool :=
  ndRanges.any (fun r => r.1 ≤ c.toNat && c.toNat ≤ r.2)

/-- The summary-count line regex regex_count, anchored at both ends: one or
more digits (the capture, digit meaning the Unicode class Nd), then the
literal suffix.  The greedy digit repetition is deterministic because the
suffix begins with a space, which is not a decimal digit. -/
def countCapture (cs : List Char) : Option (List Char) :=
  if cs.takeWhile isNd ≠ [] ∧ cs.dropWhile isNd = countSuffix then
    some (cs.takeWhile isNd)
  else none

/-- Value of a digit string read in base 10. -/
def digitsToNat (cs : List Char) : Nat :=
  cs.foldl (fun n c => n * 10 + (c.toNat - ('0').toNat)) 0

/-- Largest value of the 64-bit usize of the compilation targets of this
program. -/
def USIZE_MAX : Nat := 2 ^ 64 - 1

/-- Models the Rust standard library parse to usize as called on the digit
strings captured by regex_count: the base-10 value if the string is a
nonempty all-digit sequence whose value fits in usize, otherwise a parse
error (overflow is an error for the Rust integer parser, not a wraparound). -/
def parseUsize (cs : List Char) : Option Nat :=
  if cs.isEmpty then none
  else if cs.all Char.isDigit then
    if digitsToNat cs ≤ USIZE_MAX then some (digitsToNat cs) else none
  else none

/-- The lazy quoted-text capture of regex_attrs (main.rs line 147): scans
up to the first double quote (which closes the capture); the dot does not
match a newline, so a newline before any closing quote means no match. -/
def quoteSplit : List Char → Option (List Char × List Char)
  | [] => none
  | c :: r =>
    if c = '"' then some ([], r)
    else if c = '\n' then none
    else (quoteSplit r).map (fun p => (c :: p.1, p.2))

/-- One left-to-right find_iter pass of regex_attrs, the pattern
comma, space, double quote, lazy text capture, closing double quote
(main.rs line 147).  The fuel argument bounds the number of scanning steps;
every step consumes at least one character, so fuel equal to the length of
the input never runs out.  On a failed attempt at a position the scan
resumes one character later; after a successful match it resumes after the
closing quote (matches do not overlap).  The source maps each match through
a second captures call on the matched substring to read group 1 (main.rs
lines 164-168); that capture is exactly the text between the quotes, which
is what this function collects. -/
def attrsFromAux : Nat → List Char → List (List Char)
  | 0, _ => []
  | _ + 1, [] => []
  | n + 1, ',' :: ' ' :: '"' :: rest =>
    match quoteSplit rest with
    | some p => p.1 :: attrsFromAux n p.2
    | none => attrsFromAux n (' ' :: '"' :: rest)
  | n + 1, _ :: rest => attrsFromAux n rest

/-- All attributes collected from an attribute column, in order of
appearance (main.rs lines 164-168). -/
def attrsFrom (cs : List Char) : List (List Char) := attrsFromAux cs.length cs

/-- The cvar record struct of main.rs lines 128-133; Rust String fields are
modelled as character lists. -/
structure Cvar where
  name : List Char
  default : List Char
  attributes : List (List Char)
  description : List Char
deriving DecidableEq

/-- Capture group 4 is optional: an absent capture becomes the empty
description (main.rs lines 158-161). -/
def descOf : Option (List Char) → List Char
  | none => []
  | some d => d

/-- The record pushed for a matched line (main.rs lines 170-175). -/
def mkCvar (a b c : List Char) (d : Option (List Char)) : Cvar :=
  { name := a, default := b, attributes := attrsFrom c, description := descOf d }

/-- Split on the newline character; used to model the Rust str lines
iterator. -/
def splitNl : List Char → List (List Char)
  | [] => [[]]
  | c :: r =>
    if c = '\n' then [] :: splitNl r
    else
      match splitNl r with
      | [] => [[c]]
      | l :: ls => (c :: l) :: ls

/-- A carriage return directly before a newline is part of the line
terminator and stripped; a trailing carriage return of the final,
unterminated line is kept (Rust str lines semantics). -/
def stripCr (l : List Char) : List Char :=
  if l.getLast? = some '\r' then l.dropLast else l

/-- Finishes the Rust str lines model on the newline-split pieces: every
piece except the last was terminated by a newline and has a terminating
carriage return stripped; the last piece is dropped when empty (a trailing
newline produces no extra empty line) and kept verbatim otherwise. -/
def rustLinesAux : List (List Char) → List (List Char)
  | [] => []
  | [l] => if l.isEmpty then [] else [l]
  | l :: ls => stripCr l :: rustLinesAux ls

/-- The Rust str lines iterator over the whole input. -/
def rustLines (s : List Char) : List (List Char) :=
  rustLinesAux (splitNl s)

/-- The two panics of extract_cvars: the duplicate-count panic of main.rs
line 178 and the unwrap of the count parse at line 182.  A Rust panic
unwinds out of extract_cvars, so the caller receives no records at all;
both are modelled as error results. -/
inductive ExtractError where
  | duplicateCount
  | parseFailure
deriving DecidableEq

/-- The line loop of extract_cvars (main.rs lines 155-184): each line is
tried against regex_cvar first, then regex_count; matched records are
collected in input order, a count line sets the expected count after the
duplicate check and the usize parse.  The imperative Vec push loop of the
source builds the same list this recursion returns. -/
def extractLoop : List (List Char) → Option Nat →
    Except ExtractError (List Cvar × Option Nat)
  | [], exp => .ok ([], exp)
  | l :: ls, exp =>
    match regexCvar l with
    | some (a, b, c, d) =>
      (extractLoop ls exp).map (fun r => (mkCvar a b c d :: r.1, r.2))
    | none =>
      match countCapture l with
      | some ds =>
        match exp with
        | some _ => .error .duplicateCount
        | none =>
          match parseUsize ds with
          | some n => extractLoop ls (some n)
          | none => .error .parseFailure
      | none => extractLoop ls exp

/-- The extractor entry point extract_cvars (main.rs line 137). -/
def extract_cvars (input : List Char) :
    Except ExtractError (List Cvar × Option Nat) :=
  extractLoop (rustLines input) none

/-- The record produced for one line, as a function: the body of the first
branch of the line loop.  Convenient for stating that the loop collects
exactly one record per matching line. -/
def lineToCvar (l : List Char) : Option Cvar :=
  (regexCvar l).map (fun p => mkCvar p.1 p.2.1 p.2.2.1 p.2.2.2)

/-- The header row written by write_cvar_csv (main.rs lines 193-195),
with the misspelled third label exactly as in the source. -/
def csvHeader : List (List Char) :=
  ["name".toList, "default".toList, "attribtues".toList, "description".toList]

/-- The serializer write_cvar_csv (main.rs lines 189-208), modelled as the
sequence of records handed to the CSV writer: the header row, then one row
per cvar with the fields name, attributes joined by a comma, default,
description, in that order. -/
def write_cvar_csv (cvars : List Cvar) : List (List (List Char)) :=
  csvHeader ::
    cvars.map (fun cv =>
      [cv.name, List.intercalate [','] cv.attributes, cv.default, cv.description])

/-- Modelled from the spec: the attribute pattern as section 4.1 words it,
with the space after the comma OPTIONAL (the source regex regex_attrs
requires exactly one space).  Used only to compare the spec wording against
the source behaviour. -/
def attrsFromSpecAux : Nat → List Char → List (List Char)
  | 0, _ => []
  | _ + 1, [] => []
  | n + 1, ',' :: ' ' :: '"' :: rest =>
    match quoteSplit rest with
    | some p => p.1 :: attrsFromSpecAux n p.2
    | none => attrsFromSpecAux n (' ' :: '"' :: rest)
  | n + 1, ',' :: '"' :: rest =>
    match quoteSplit rest with
    | some p => p.1 :: attrsFromSpecAux n p.2
    | none => attrsFromSpecAux n ('"' :: rest)
  | n + 1, _ :: rest => attrsFromSpecAux n rest

/-- Attribute collection following the spec wording (optional space). -/
def attrsFromSpec (cs : List Char) : List (List Char) :=
  attrsFromSpecAux cs.length cs

/-- Removal of the optional single leading space in front of the
description, as section 4.1 of the spec describes segment 4. -/
def dropLeadingSpace : List Char → List Char
  | ' ' :: r => r
  | t => t

/-! Helper lemmas about the quoted-text capture and the attribute scan. -/

theorem quoteSplit_length {cs a r : List Char} (h : quoteSplit cs = some (a, r)) :
    cs.length = a.length + r.length + 1 := by
  induction cs generalizing a r with
  | nil => simp [quoteSplit] at h
  | cons c cs ih =>
    by_cases hq : c = '"'
    · subst hq
      simp [quoteSplit] at h
      obtain ⟨ha, hr⟩ := h
      subst ha; subst hr; simp
    · by_cases hn : c = '\n'
      · subst hn
        simp [quoteSplit] at h
      · simp [quoteSplit, hq, hn, Option.map_eq_some'] at h
        obtain ⟨p, hp, hpe⟩ := h
        subst hpe
        have := ih hp
        simp only [List.length_cons]
        omega

theorem quoteSplit_no_quote {cs a r : List Char} (h : quoteSplit cs = some (a, r)) :
    ∀ c ∈ a, c ≠ '"' := by
  induction cs generalizing a r with
  | nil => simp [quoteSplit] at h
  | cons c cs ih =>
    by_cases hq : c = '"'
    · subst hq
      simp [quoteSplit] at h
      obtain ⟨ha, hr⟩ := h
      subst ha
      intro x hx
      simp at hx
    · by_cases hn : c = '\n'
      · subst hn
        simp [quoteSplit] at h
      · simp [quoteSplit, hq, hn, Option.map_eq_some'] at h
        obtain ⟨p, hp, hpe⟩ := h
        subst hpe
        intro x hx
        rcases List.mem_cons.mp hx with hx | hx
        · subst hx; exact hq
        · exact ih hp x hx

theorem quoteSplit_no_newline {cs a r : List Char} (h : quoteSplit cs = some (a, r)) :
    ∀ c ∈ a, c ≠ '\n' := by
  induction cs generalizing a r with
  | nil => simp [quoteSplit] at h
  | cons c cs ih =>
    by_cases hq : c = '"'
    · subst hq
      simp [quoteSplit] at h
      obtain ⟨ha, hr⟩ := h
      subst ha
      intro x hx
      simp at hx
    · by_cases hn : c = '\n'
      · subst hn
        simp [quoteSplit] at h
      · simp [quoteSplit, hq, hn, Option.map_eq_some'] at h
        obtain ⟨p, hp, hpe⟩ := h
        subst hpe
        intro x hx
        rcases List.mem_cons.mp hx with hx | hx
        · subst hx; exact hn
        · exact ih hp x hx

theorem quoteSplit_append {a r : List Char} (h : ∀ c ∈ a, c ≠ '"' ∧ c ≠ '\n') :
    quoteSplit (a ++ '"' :: r) = some (a, r) := by
  induction a with
  | nil => simp [quoteSplit]
  | cons c a ih =>
    have hc := h c (List.mem_cons_self c a)
    have ha : ∀ x ∈ a, x ≠ '"' ∧ x ≠ '\n' := fun x hx => h x (List.mem_cons_of_mem c hx)
    simp only [List.cons_append]
    unfold quoteSplit
    simp [hc.1, hc.2, ih ha]

theorem attrsFromAux_nil (n : Nat) : attrsFromAux n [] = [] := by
  cases n <;> rfl

theorem attrsFromAux_skip (n : Nat) (c : Char) (rest : List Char)
    (h : ¬ (c = ',' ∧ ∃ r2, rest = ' ' :: '"' :: r2)) :
    attrsFromAux (n + 1) (c :: rest) = attrsFromAux n rest := by
  conv_lhs => unfold attrsFromAux
  split
  · rename_i heq _
    omega
  · rename_i heq
    simp at heq
  · rename_i m r2 heq1 heq2
    injection heq2 with hc hrest
    exact absurd ⟨hc, r2, hrest⟩ h
  · rename_i m hd tl hnot heq1 heq2
    injection heq2 with hc hrest
    injection heq1 with hm
    subst hm; subst hrest; rfl

theorem attrsFromAux_triple (n : Nat) (rest : List Char) :
    attrsFromAux (n + 1) (',' :: ' ' :: '"' :: rest) =
      (match quoteSplit rest with
       | some p => p.1 :: attrsFromAux n p.2
       | none => attrsFromAux n (' ' :: '"' :: rest)) := rfl

theorem attrsFromAux_congr :
    ∀ k n m cs, cs.length ≤ k → cs.length ≤ n → cs.length ≤ m →
      attrsFromAux n cs = attrsFromAux m cs := by
  intro k
  induction k with
  | zero =>
    intro n m cs hk _ _
    have : cs = [] := List.length_eq_zero.mp (Nat.le_zero.mp hk)
    subst this
    rw [attrsFromAux_nil, attrsFromAux_nil]
  | succ k ih =>
    intro n m cs hk hn hm
    cases cs with
    | nil => rw [attrsFromAux_nil, attrsFromAux_nil]
    | cons c rest =>
      simp only [List.length_cons] at hk hn hm
      obtain ⟨n1, rfl⟩ : ∃ n1, n = n1 + 1 := ⟨n - 1, by omega⟩
      obtain ⟨m1, rfl⟩ : ∃ m1, m = m1 + 1 := ⟨m - 1, by omega⟩
      by_cases h : c = ',' ∧ ∃ r2, rest = ' ' :: '"' :: r2
      · obtain ⟨rfl, r2, rfl⟩ := h
        rw [attrsFromAux_triple, attrsFromAux_triple]
        cases hq : quoteSplit r2 with
        | none =>
          simp only [List.length_cons] at hk hn hm
          exact ih n1 m1 (' ' :: '"' :: r2) (by simp; omega) (by simp; omega)
            (by simp; omega)
        | some p =>
          have hlen := quoteSplit_length hq
          simp only [List.length_cons] at hk hn hm
          simp only [ih n1 m1 p.2 (by omega) (by omega) (by omega)]
      · rw [attrsFromAux_skip n1 c rest h, attrsFromAux_skip m1 c rest h]
        exact ih n1 m1 rest (by omega) (by omega) (by omega)

theorem attrsFrom_eq_aux {n : Nat} {cs : List Char} (hn : cs.length ≤ n) :
    attrsFrom cs = attrsFromAux n cs :=
  attrsFromAux_congr n cs.length n cs hn (Nat.le_refl _) hn

theorem attrsFrom_nil : attrsFrom [] = [] := rfl

theorem attrsFrom_skip_head {c : Char} {rest : List Char}
    (h : ¬ (c = ',' ∧ ∃ r2, rest = ' ' :: '"' :: r2)) :
    attrsFrom (c :: rest) = attrsFrom rest := by
  unfold attrsFrom
  simp only [List.length_cons]
  rw [attrsFromAux_skip rest.length c rest h]

theorem attrsFrom_triple {a r : List Char} (h : ∀ c ∈ a, c ≠ '"' ∧ c ≠ '\n') :
    attrsFrom (',' :: ' ' :: '"' :: (a ++ '"' :: r)) = a :: attrsFrom r := by
  unfold attrsFrom
  simp only [List.length_cons]
  rw [attrsFromAux_triple, quoteSplit_append h]
  simp only
  congr 1
  exact (attrsFromAux_congr ((a ++ '"' :: r).length + 2) ((a ++ '"' :: r).length + 2)
    r.length r (by simp; omega) (by simp; omega) (Nat.le_refl _)).symm ▸
    (attrsFromAux_congr ((a ++ '"' :: r).length + 2) ((a ++ '"' :: r).length + 2)
      r.length r (by simp; omega) (by simp; omega) (Nat.le_refl _))

theorem attrsFrom_no_quote {cs : List Char} (h : ∀ c ∈ cs, c ≠ '"') :
    attrsFrom cs = [] := by
  induction cs with
  | nil => rfl
  | cons c rest ih =>
    have hns : ¬ (c = ',' ∧ ∃ r2, rest = ' ' :: '"' :: r2) := by
      rintro ⟨rfl, r2, rfl⟩
      exact h '"' (by simp) rfl
    rw [attrsFrom_skip_head hns]
    exact ih (fun x hx => h x (List.mem_cons_of_mem c hx))

theorem attrsFrom_append_skip {s rest : List Char} (h : ∀ c ∈ s, c ≠ '"') :
    attrsFrom (s ++ ',' :: ' ' :: '"' :: rest) =
      attrsFrom (',' :: ' ' :: '"' :: rest) := by
  induction s with
  | nil => rfl
  | cons c s ih =>
    have hns : ¬ (c = ',' ∧ ∃ r2, s ++ ',' :: ' ' :: '"' :: rest = ' ' :: '"' :: r2) := by
      rintro ⟨rfl, r2, hr⟩
      cases s with
      | nil => simp at hr
      | cons x s2 =>
        cases s2 with
        | nil => simp at hr
        | cons y s3 =>
          simp at hr
          exact h y (by simp [hr.2.1]) hr.2.1
    simp only [List.cons_append]
    rw [attrsFrom_skip_head hns]
    exact ih (fun x hx => h x (List.mem_cons_of_mem c hx))

/-! Helper lemmas about the record-line matcher. -/

theorem chompColonSp_cons_wsp {ch : Char} {cs : List Char} (h : isWsp ch = true) :
    chompColonSp (ch :: cs) = chompColonSp cs := by
  unfold chompColonSp
  rw [List.dropWhile_cons_of_pos h]

theorem chompColonSp_sound {cs r : List Char} (h : chompColonSp cs = some r) :
    ∃ w, cs = w ++ ':' :: ' ' :: r ∧ ∀ x ∈ w, isWsp x = true := by
  unfold chompColonSp at h
  split at h
  · rename_i r2 heq
    injection h with h2
    subst h2
    refine ⟨cs.takeWhile isWsp, ?_, ?_⟩
    · conv_lhs => rw [← List.takeWhile_append_dropWhile (p := isWsp) (l := cs)]
      rw [heq]
    · intro x hx
      exact List.mem_takeWhile_imp hx
  · exact absurd h (by simp)

theorem chompColon_sound {cs r : List Char} (h : chompColon cs = some r) :
    ∃ w, cs = w ++ ':' :: r ∧ ∀ x ∈ w, isWsp x = true := by
  unfold chompColon at h
  split at h
  · rename_i r2 heq
    injection h with h2
    subst h2
    refine ⟨cs.takeWhile isWsp, ?_, ?_⟩
    · conv_lhs => rw [← List.takeWhile_append_dropWhile (p := isWsp) (l := cs)]
      rw [heq]
    · intro x hx
      exact List.mem_takeWhile_imp hx
  · exact absurd h (by simp)

theorem tailOk_sound {t : List Char} {d : Option (List Char)} (h : tailOk t = some d) :
    (t = [] ∧ d = none) ∨ (∃ dd, d = some dd ∧ t = ' ' :: dd) := by
  unfold tailOk at h
  split at h
  · injection h with h2
    exact Or.inl ⟨rfl, h2.symm⟩
  · rename_i dd
    split at h
    · exact absurd h (by simp)
    · injection h with h2
      exact Or.inr ⟨dd, h2.symm, rfl⟩
  · exact absurd h (by simp)

theorem seg3_nil : seg3 ([] : List Char) = none := rfl

theorem seg3_cons (ch : Char) (cs : List Char) :
    seg3 (ch :: cs) =
      (match (chompColon (ch :: cs)).bind tailOk with
       | some d => some ([], d)
       | none =>
         if ch = '\n' then none
         else (seg3 cs).map (fun p => (ch :: p.1, p.2))) := rfl

theorem seg3_sound {cs c : List Char} {d : Option (List Char)}
    (h : seg3 cs = some (c, d)) :
    ∃ w t, cs = c ++ w ++ ':' :: t ∧ (∀ x ∈ w, isWsp x = true) ∧ tailOk t = some d := by
  induction cs generalizing c d with
  | nil =>
    rw [seg3_nil] at h
    simp at h
  | cons ch cs ih =>
    rw [seg3_cons] at h
    cases hb : (chompColon (ch :: cs)).bind tailOk with
    | some d0 =>
      rw [hb] at h
      simp only [Option.some.injEq, Prod.mk.injEq] at h
      obtain ⟨hc, hd⟩ := h
      subst hc; subst hd
      obtain ⟨t0, hch, htl⟩ := Option.bind_eq_some.mp hb
      obtain ⟨w, hw, hww⟩ := chompColon_sound hch
      exact ⟨w, t0, by simpa using hw, hww, htl⟩
    | none =>
      rw [hb] at h
      simp only at h
      split at h
      · exact absurd h (by simp)
      · rw [Option.map_eq_some'] at h
        obtain ⟨p, hp, hpe⟩ := h
        injection hpe with h1 h2
        subst h1; subst h2
        obtain ⟨w, t, hw, hww, htl⟩ := ih hp
        exact ⟨w, t, by simp [hw], hww, htl⟩

theorem seg2_nil : seg2 ([] : List Char) = none := rfl

theorem seg2_cons (ch : Char) (cs : List Char) :
    seg2 (ch :: cs) =
      (match (chompColonSp (ch :: cs)).bind seg3 with
       | some p => some ([], p)
       | none =>
         if ch = '\n' then none
         else (seg2 cs).map (fun p => (ch :: p.1, p.2))) := rfl

theorem seg2_sound {cs b : List Char} {p : List Char × Option (List Char)}
    (h : seg2 cs = some (b, p)) :
    ∃ w u, cs = b ++ w ++ ':' :: ' ' :: u ∧ (∀ x ∈ w, isWsp x = true) ∧
      seg3 u = some p := by
  induction cs generalizing b p with
  | nil =>
    rw [seg2_nil] at h
    simp at h
  | cons ch cs ih =>
    rw [seg2_cons] at h
    cases hb : (chompColonSp (ch :: cs)).bind seg3 with
    | some p0 =>
      rw [hb] at h
      simp only [Option.some.injEq, Prod.mk.injEq] at h
      obtain ⟨hc, hd⟩ := h
      subst hc; subst hd
      obtain ⟨u0, hch, hs3⟩ := Option.bind_eq_some.mp hb
      obtain ⟨w, hw, hww⟩ := chompColonSp_sound hch
      exact ⟨w, u0, by simpa using hw, hww, hs3⟩
    | none =>
      rw [hb] at h
      simp only at h
      split at h
      · exact absurd h (by simp)
      · rw [Option.map_eq_some'] at h
        obtain ⟨q, hq, hqe⟩ := h
        injection hqe with h1 h2
        subst h1; subst h2
        obtain ⟨w, u, hw, hww, hs3⟩ := ih hq
        exact ⟨w, u, by simp [hw], hww, hs3⟩

theorem regexCvar_nil : regexCvar ([] : List Char) = none := rfl

theorem regexCvar_cons (ch : Char) (cs : List Char) :
    regexCvar (ch :: cs) =
      (match (chompColonSp (ch :: cs)).bind seg2 with
       | some p => some ([], p)
       | none =>
         if ch = '\n' then none
         else (regexCvar cs).map (fun p => (ch :: p.1, p.2))) := rfl

theorem regexCvar_sound {cs a : List Char}
    {p : List Char × List Char × Option (List Char)}
    (h : regexCvar cs = some (a, p)) :
    ∃ w u, cs = a ++ w ++ ':' :: ' ' :: u ∧ (∀ x ∈ w, isWsp x = true) ∧
      seg2 u = some p := by
  induction cs generalizing a p with
  | nil =>
    rw [regexCvar_nil] at h
    simp at h
  | cons ch cs ih =>
    rw [regexCvar_cons] at h
    cases hb : (chompColonSp (ch :: cs)).bind seg2 with
    | some p0 =>
      rw [hb] at h
      simp only [Option.some.injEq, Prod.mk.injEq] at h
      obtain ⟨hc, hd⟩ := h
      subst hc; subst hd
      obtain ⟨u0, hch, hs2⟩ := Option.bind_eq_some.mp hb
      obtain ⟨w, hw, hww⟩ := chompColonSp_sound hch
      exact ⟨w, u0, by simpa using hw, hww, hs2⟩
    | none =>
      rw [hb] at h
      simp only at h
      split at h
      · exact absurd h (by simp)
      · rw [Option.map_eq_some'] at h
        obtain ⟨q, hq, hqe⟩ := h
        injection hqe with h1 h2
        subst h1; subst h2
        obtain ⟨w, u, hw, hww, hs2⟩ := ih hq
        exact ⟨w, u, by simp [hw], hww, hs2⟩

theorem seg2_head_of_nil {cs : List Char} {p : List Char × Option (List Char)}
    (h : seg2 cs = some ([], p)) :
    (chompColonSp cs).bind seg3 = some p := by
  cases cs with
  | nil =>
    rw [seg2_nil] at h
    simp at h
  | cons ch cs =>
    rw [seg2_cons] at h
    cases hb : (chompColonSp (ch :: cs)).bind seg3 with
    | some p0 =>
      rw [hb] at h
      simp only [Option.some.injEq, Prod.mk.injEq] at h
      rw [h.2]
    | none =>
      rw [hb] at h
      simp only at h
      split at h
      · exact absurd h (by simp)
      · rw [Option.map_eq_some'] at h
        obtain ⟨q, hq, hqe⟩ := h
        injection hqe with h1 h2
        simp at h1

theorem regexCvar_head_of_nil {cs : List Char}
    {p : List Char × List Char × Option (List Char)}
    (h : regexCvar cs = some ([], p)) :
    (chompColonSp cs).bind seg2 = some p := by
  cases cs with
  | nil =>
    rw [regexCvar_nil] at h
    simp at h
  | cons ch cs =>
    rw [regexCvar_cons] at h
    cases hb : (chompColonSp (ch :: cs)).bind seg2 with
    | some p0 =>
      rw [hb] at h
      simp only [Option.some.injEq, Prod.mk.injEq] at h
      rw [h.2]
    | none =>
      rw [hb] at h
      simp only at h
      split at h
      · exact absurd h (by simp)
      · rw [Option.map_eq_some'] at h
        obtain ⟨q, hq, hqe⟩ := h
        injection hqe with h1 h2
        simp at h1

theorem seg2_fst_last_not_wsp {cs b : List Char} {p : List Char × Option (List Char)}
    (h : seg2 cs = some (b, p)) :
    ∀ w, b.getLast? = some w → isWsp w = false := by
  induction cs generalizing b p with
  | nil =>
    rw [seg2_nil] at h
    simp at h
  | cons ch cs ih =>
    rw [seg2_cons] at h
    cases hb : (chompColonSp (ch :: cs)).bind seg3 with
    | some p0 =>
      rw [hb] at h
      simp only [Option.some.injEq, Prod.mk.injEq] at h
      obtain ⟨hbb, _⟩ := h
      subst hbb
      intro w hw
      simp at hw
    | none =>
      rw [hb] at h
      simp only at h
      split at h
      · exact absurd h (by simp)
      · rw [Option.map_eq_some'] at h
        obtain ⟨q, hq, hqe⟩ := h
        obtain ⟨q1, q2⟩ := q
        injection hqe with h1 h2
        subst h2
        subst h1
        intro w hw
        cases q1 with
        | nil =>
          simp [List.getLast?] at hw
          subst hw
          by_contra hws
          rw [Bool.not_eq_false] at hws
          have hnil := seg2_head_of_nil hq
          rw [← @chompColonSp_cons_wsp ch cs hws] at hnil
          rw [hnil] at hb
          exact absurd hb (by simp)
        | cons x xs =>
          rw [List.getLast?_cons_cons] at hw
          exact ih hq w hw

theorem regexCvar_fst_last_not_wsp {cs a : List Char}
    {p : List Char × List Char × Option (List Char)}
    (h : regexCvar cs = some (a, p)) :
    ∀ w, a.getLast? = some w → isWsp w = false := by
  induction cs generalizing a p with
  | nil =>
    rw [regexCvar_nil] at h
    simp at h
  | cons ch cs ih =>
    rw [regexCvar_cons] at h
    cases hb : (chompColonSp (ch :: cs)).bind seg2 with
    | some p0 =>
      rw [hb] at h
      simp only [Option.some.injEq, Prod.mk.injEq] at h
      obtain ⟨hbb, _⟩ := h
      subst hbb
      intro w hw
      simp at hw
    | none =>
      rw [hb] at h
      simp only at h
      split at h
      · exact absurd h (by simp)
      · rw [Option.map_eq_some'] at h
        obtain ⟨q, hq, hqe⟩ := h
        obtain ⟨q1, q2⟩ := q
        injection hqe with h1 h2
        subst h2
        subst h1
        intro w hw
        cases q1 with
        | nil =>
          simp [List.getLast?] at hw
          subst hw
          by_contra hws
          rw [Bool.not_eq_false] at hws
          have hnil := regexCvar_head_of_nil hq
          rw [← @chompColonSp_cons_wsp ch cs hws] at hnil
          rw [hnil] at hb
          exact absurd hb (by simp)
        | cons x xs =>
          rw [List.getLast?_cons_cons] at hw
          exact ih hq w hw

/-! Helper lemmas about the summary-count line and the usize parse. -/

theorem countCapture_sound {l ds : List Char} (h : countCapture l = some ds) :
    ds ≠ [] ∧ (∀ c ∈ ds, isNd c = true) ∧ l = ds ++ countSuffix := by
  unfold countCapture at h
  split at h
  · rename_i hcond
    injection h with h2
    subst h2
    refine ⟨hcond.1, fun c hc => List.mem_takeWhile_imp hc, ?_⟩
    conv_lhs => rw [← List.takeWhile_append_dropWhile (p := isNd) (l := l)]
    rw [hcond.2]
  · exact absurd h (by simp)

theorem countSuffix_no_colon : ∀ c ∈ countSuffix, c ≠ ':' := by decide

theorem count_line_no_cvar {l ds : List Char} (h : countCapture l = some ds) :
    regexCvar l = none := by
  obtain ⟨_, hdig, hl⟩ := countCapture_sound h
  cases hr : regexCvar l with
  | none => rfl
  | some p =>
    obtain ⟨a, q⟩ := p
    obtain ⟨w, u, hdec, _, _⟩ := regexCvar_sound hr
    have hmem : ':' ∈ l := by
      rw [hdec]
      simp
    rw [hl] at hmem
    rcases List.mem_append.mp hmem with hm | hm
    · exact absurd (hdig ':' hm) (by decide)
    · exact absurd rfl (countSuffix_no_colon ':' hm)


theorem cvar_line_no_count {l : List Char}
    {p : List Char × List Char × List Char × Option (List Char)}
    (h : regexCvar l = some p) : countCapture l = none := by
  cases hc : countCapture l with
  | none => rfl
  | some ds =>
    rw [count_line_no_cvar hc] at h
    exact absurd h (by simp)

theorem parseUsize_eq_some {cs : List Char} {n : Nat} (h : parseUsize cs = some n) :
    n = digitsToNat cs := by
  unfold parseUsize at h
  split at h
  · exact absurd h (by simp)
  · split at h
    · split at h
      · injection h with h2
        exact h2.symm
      · exact absurd h (by simp)
    · exact absurd h (by simp)

theorem parseUsize_not_all_digits {cs : List Char}
    (h : ∃ c ∈ cs, c.isDigit = false) : parseUsize cs = none := by
  obtain ⟨c, hc, hcd⟩ := h
  have ha : cs.all Char.isDigit = false := by
    rw [Bool.eq_false_iff]
    intro hall
    exact absurd (List.all_eq_true.mp hall c hc) (by simp [hcd])
  unfold parseUsize
  split
  · rfl
  · rw [ha]
    simp

theorem parseUsize_of_digits {cs : List Char} (hne : cs ≠ [])
    (hdig : ∀ c ∈ cs, c.isDigit = true) :
    (digitsToNat cs ≤ USIZE_MAX → parseUsize cs = some (digitsToNat cs)) ∧
      (USIZE_MAX < digitsToNat cs → parseUsize cs = none) := by
  have he : cs.isEmpty = false := by
    cases cs with
    | nil => exact absurd rfl hne
    | cons c r => rfl
  have ha : cs.all Char.isDigit = true := List.all_eq_true.mpr hdig
  constructor
  · intro hle
    unfold parseUsize
    rw [he, ha]
    simp [hle]
  · intro hlt
    unfold parseUsize
    rw [he, ha]
    simp [Nat.not_le.mpr hlt]

/-! Helper lemmas about the extraction loop. -/

theorem extractLoop_nil (exp : Option Nat) : extractLoop [] exp = .ok ([], exp) := rfl

theorem extractLoop_cons (l : List Char) (ls : List (List Char)) (exp : Option Nat) :
    extractLoop (l :: ls) exp =
      (match regexCvar l with
       | some (a, b, c, d) =>
         (extractLoop ls exp).map (fun r => (mkCvar a b c d :: r.1, r.2))
       | none =>
         match countCapture l with
         | some ds =>
           match exp with
           | some _ => .error .duplicateCount
           | none =>
             match parseUsize ds with
             | some n => extractLoop ls (some n)
             | none => .error .parseFailure
         | none => extractLoop ls exp) := rfl

theorem extractLoop_ok_characterization :
    ∀ (ls : List (List Char)) (exp : Option Nat) (cvs : List Cvar) (e : Option Nat),
      extractLoop ls exp = .ok (cvs, e) →
      cvs = ls.filterMap lineToCvar ∧
      ((exp = none ∧ e = (ls.filterMap countCapture).head?.map digitsToNat ∧
          (ls.filterMap countCapture).length ≤ 1) ∨
        (∃ n, exp = some n ∧ ls.filterMap countCapture = [] ∧ e = some n)) := by
  intro ls
  induction ls with
  | nil =>
    intro exp cvs e h
    rw [extractLoop_nil] at h
    simp only [Except.ok.injEq, Prod.mk.injEq] at h
    obtain ⟨hcv, he⟩ := h
    subst hcv; subst he
    refine ⟨by simp, ?_⟩
    cases exp with
    | none => exact Or.inl ⟨rfl, by simp, by simp⟩
    | some n => exact Or.inr ⟨n, rfl, by simp, rfl⟩
  | cons l ls ih =>
    intro exp cvs e h
    rw [extractLoop_cons] at h
    cases hr : regexCvar l with
    | some p =>
      obtain ⟨a, b, c, d⟩ := p
      rw [hr] at h
      simp only at h
      cases hin : extractLoop ls exp with
      | error er =>
        rw [hin] at h
        simp [Except.map] at h
      | ok r =>
        obtain ⟨cvs2, e2⟩ := r
        rw [hin] at h
        simp only [Except.map, Except.ok.injEq, Prod.mk.injEq] at h
        obtain ⟨hcv, he⟩ := h
        subst hcv; subst he
        obtain ⟨hc, hrest⟩ := ih exp cvs2 e2 hin
        have hcc : countCapture l = none := cvar_line_no_count hr
        have hlc : lineToCvar l = some (mkCvar a b c d) := by
          simp [lineToCvar, hr]
        constructor
        · simp only [List.filterMap_cons, hlc]
          rw [hc]
        · simp only [List.filterMap_cons, hcc]
          exact hrest
    | none =>
      rw [hr] at h
      simp only at h
      have hlc : lineToCvar l = none := by simp [lineToCvar, hr]
      cases hc : countCapture l with
      | some ds =>
        rw [hc] at h
        cases exp with
        | some n =>
          simp only at h
          exact absurd h (by simp)
        | none =>
          simp only at h
          cases hp : parseUsize ds with
          | some n =>
            rw [hp] at h
            obtain ⟨hcv, hrest⟩ := ih (some n) cvs e h
            rcases hrest with ⟨hne, _, _⟩ | ⟨n2, hn2, hcounts, he⟩
            · exact absurd hne (by simp)
            · have hn : n2 = n := by
                injection hn2 with h2
                exact h2.symm
              subst hn
              refine ⟨by simpa [List.filterMap_cons, hlc] using hcv, Or.inl ⟨rfl, ?_, ?_⟩⟩
              · simp only [List.filterMap_cons, hc, List.head?_cons, Option.map_some']
                rw [he, parseUsize_eq_some hp]
              · simp only [List.filterMap_cons, hc, List.length_cons, hcounts]
                simp
          | none =>
            rw [hp] at h
            exact absurd h (by simp)
      | none =>
        rw [hc] at h
        obtain ⟨hcv, hrest⟩ := ih exp cvs e h
        refine ⟨by simpa [List.filterMap_cons, hlc] using hcv, ?_⟩
        simp only [List.filterMap_cons, hc]
        exact hrest

theorem extractLoop_error_of_counts :
    ∀ (ls : List (List Char)) (exp : Option Nat),
      ((∃ n, exp = some n) ∧ 1 ≤ (ls.filterMap countCapture).length) ∨
        2 ≤ (ls.filterMap countCapture).length →
      ∃ er, extractLoop ls exp = .error er := by
  intro ls
  induction ls with
  | nil =>
    intro exp h
    simp at h
  | cons l ls ih =>
    intro exp h
    cases hr : regexCvar l with
    | some p =>
      obtain ⟨a, b, c, d⟩ := p
      have hcc : countCapture l = none := cvar_line_no_count hr
      simp only [List.filterMap_cons, hcc] at h
      obtain ⟨er, hin⟩ := ih exp h
      exact ⟨er, by rw [extractLoop_cons, hr, hin]; rfl⟩
    | none =>
      cases hc : countCapture l with
      | some ds =>
        cases exp with
        | some n =>
          exact ⟨.duplicateCount, by rw [extractLoop_cons, hr, hc]⟩
        | none =>
          simp only [List.filterMap_cons, hc, List.length_cons] at h
          have hlen : 1 ≤ (ls.filterMap countCapture).length := by
            rcases h with ⟨⟨n, hn⟩, _⟩ | h2
            · exact absurd hn (by simp)
            · omega
          cases hp : parseUsize ds with
          | some m =>
            obtain ⟨er, hin⟩ := ih (some m) (Or.inl ⟨⟨m, rfl⟩, hlen⟩)
            exact ⟨er, by simp only [extractLoop_cons, hr, hc, hp, hin]⟩
          | none =>
            exact ⟨.parseFailure, by simp only [extractLoop_cons, hr, hc, hp]⟩
      | none =>
        simp only [List.filterMap_cons, hc] at h
        obtain ⟨er, hin⟩ := ih exp h
        exact ⟨er, by rw [extractLoop_cons, hr, hc, hin]⟩

theorem extractLoop_ok_of_counts :
    ∀ (ls : List (List Char)) (exp : Option Nat),
      (ls.filterMap countCapture).length + (if exp.isSome then 1 else 0) ≤ 1 →
      (∀ ds ∈ ls.filterMap countCapture,
        (∀ c ∈ ds, c.isDigit = true) ∧ digitsToNat ds ≤ USIZE_MAX) →
      ∃ r, extractLoop ls exp = .ok r := by
  intro ls
  induction ls with
  | nil =>
    intro exp _ _
    exact ⟨([], exp), rfl⟩
  | cons l ls ih =>
    intro exp hlen hfit
    cases hr : regexCvar l with
    | some p =>
      obtain ⟨a, b, c, d⟩ := p
      have hcc : countCapture l = none := cvar_line_no_count hr
      simp only [List.filterMap_cons, hcc] at hlen hfit
      obtain ⟨r, hin⟩ := ih exp hlen hfit
      exact ⟨(mkCvar a b c d :: r.1, r.2), by rw [extractLoop_cons, hr, hin]; rfl⟩
    | none =>
      cases hc : countCapture l with
      | some ds =>
        simp only [List.filterMap_cons, hc, List.length_cons] at hlen hfit
        cases exp with
        | some n =>
          simp only [Option.isSome_some, if_true] at hlen
          omega
        | none =>
          simp only [Option.isSome_none, if_false] at hlen
          obtain ⟨hne, _, _⟩ := countCapture_sound hc
          obtain ⟨hascii, hfits⟩ := hfit ds (List.mem_cons_self ds _)
          have hp := (parseUsize_of_digits hne hascii).1 hfits
          obtain ⟨r, hin⟩ := ih (some (digitsToNat ds))
            (by simp only [Option.isSome_some, if_true]; omega)
            (fun ds2 hds2 => hfit ds2 (List.mem_cons_of_mem ds hds2))
          exact ⟨r, by simp only [extractLoop_cons, hr, hc, hp, hin]⟩
      | none =>
        simp only [List.filterMap_cons, hc] at hlen hfit
        obtain ⟨r, hin⟩ := ih exp hlen hfit
        exact ⟨r, by rw [extractLoop_cons, hr, hc, hin]⟩

theorem attrsFromAux_mem_no_quote :
    ∀ (n : Nat) (cs a : List Char), a ∈ attrsFromAux n cs → ∀ c ∈ a, c ≠ '"' := by
  intro n
  induction n with
  | zero =>
    intro cs a ha
    simp [attrsFromAux] at ha
  | succ n ih =>
    intro cs a ha
    cases cs with
    | nil => simp [attrsFromAux_nil] at ha
    | cons c rest =>
      by_cases hts : c = ',' ∧ ∃ r2, rest = ' ' :: '"' :: r2
      · obtain ⟨rfl, r2, rfl⟩ := hts
        rw [attrsFromAux_triple] at ha
        cases hq : quoteSplit r2 with
        | some p =>
          rw [hq] at ha
          simp only at ha
          rcases List.mem_cons.mp ha with ha | ha
          · subst ha
            exact quoteSplit_no_quote hq
          · exact ih p.2 a ha
        | none =>
          rw [hq] at ha
          simp only at ha
          exact ih (' ' :: '"' :: r2) a ha
      · rw [attrsFromAux_skip n c rest hts] at ha
        exact ih rest a ha

theorem attrsFrom_mem_no_quote {cs a : List Char} (ha : a ∈ attrsFrom cs) :
    ∀ c ∈ a, c ≠ '"' :=
  attrsFromAux_mem_no_quote cs.length cs a ha

theorem extract_cvars_ok {input : List Char} {cvars : List Cvar} {exp : Option Nat}
    (h : extract_cvars input = .ok (cvars, exp)) :
    cvars = (rustLines input).filterMap lineToCvar ∧
    exp = ((rustLines input).filterMap countCapture).head?.map digitsToNat ∧
    ((rustLines input).filterMap countCapture).length ≤ 1 := by
  obtain ⟨hcv, hrest⟩ := extractLoop_ok_characterization (rustLines input) none cvars exp h
  rcases hrest with ⟨_, he, hlen⟩ | ⟨n, hn, _, _⟩
  · exact ⟨hcv, he, hlen⟩
  · exact absurd hn (by simp)

/-! The claims. -/

/-- C1 (code bug): for every serializer call the first row is the header and
serializing the empty record sequence writes exactly that row and nothing
else, but the third header field is the misspelled literal of the source,
not the word the spec uses. -/
theorem header_row_misspelled :
    write_cvar_csv [] = [["name".toList, "default".toList, "attribtues".toList,
      "description".toList]] ∧
    ("attribtues".toList : List Char) ≠ "attributes".toList :=
  ⟨rfl, by decide⟩

/-- C2 counterexample: on a record line whose attribute column is the
comma-quote form without a space, the code collects no attribute although
the pattern as the claim words it (optional space) collects one. -/
theorem attrs_optional_space_counterexample :
    extract_cvars ("n : d : ,\"A\" :".toList) =
      .ok ([⟨['n'], ['d'], [], []⟩], none) ∧
    regexCvar ("n : d : ,\"A\" :".toList) =
      some (['n'], ['d'], ",\"A\"".toList, none) ∧
    attrsFromSpec (",\"A\"".toList) = [['A']] ∧
    attrsFrom (",\"A\"".toList) = [] :=
  ⟨rfl, rfl, rfl, rfl⟩

/-- C2 amended: the attribute extractor collects, in order of appearance,
the quoted text of every occurrence of comma, exactly ONE space, quote,
text, closing quote (the space is mandatory, not optional); a column with
no such occurrence (here: no quote at all) yields the empty sequence. -/
theorem attrs_collected_in_order :
    (∀ s0 s1 s2 s3 a1 a2 a3 : List Char,
      (∀ c ∈ s0, c ≠ '"') → (∀ c ∈ s1, c ≠ '"') →
      (∀ c ∈ s2, c ≠ '"') → (∀ c ∈ s3, c ≠ '"') →
      (∀ c ∈ a1, c ≠ '"' ∧ c ≠ '\n') → (∀ c ∈ a2, c ≠ '"' ∧ c ≠ '\n') →
      (∀ c ∈ a3, c ≠ '"' ∧ c ≠ '\n') →
      attrsFrom (s0 ++ ',' :: ' ' :: '"' :: (a1 ++ '"' ::
        (s1 ++ ',' :: ' ' :: '"' :: (a2 ++ '"' ::
          (s2 ++ ',' :: ' ' :: '"' :: (a3 ++ '"' :: s3)))))) = [a1, a2, a3]) ∧
    (∀ cs : List Char, (∀ c ∈ cs, c ≠ '"') → attrsFrom cs = []) := by
  constructor
  · intro s0 s1 s2 s3 a1 a2 a3 h0 h1 h2 h3 ha1 ha2 ha3
    rw [attrsFrom_append_skip h0, attrsFrom_triple ha1,
      attrsFrom_append_skip h1, attrsFrom_triple ha2,
      attrsFrom_append_skip h2, attrsFrom_triple ha3,
      attrsFrom_no_quote h3]
  · intro cs h
    exact attrsFrom_no_quote h

theorem attrs_collected_in_order_witness :
    attrsFrom ("sv, rep".toList ++ ',' :: ' ' :: '"' :: ("A".toList ++ '"' ::
      ("".toList ++ ',' :: ' ' :: '"' :: ("B".toList ++ '"' ::
        (" x".toList ++ ',' :: ' ' :: '"' :: ("C".toList ++ '"' :: "".toList)))))) =
      ["A".toList, "B".toList, "C".toList] ∧
    attrsFrom ("sv, cl".toList) = [] :=
  ⟨attrs_collected_in_order.1 "sv, rep".toList "".toList " x".toList "".toList
      "A".toList "B".toList "C".toList (by decide) (by decide) (by decide)
      (by decide) (by decide) (by decide) (by decide),
    attrs_collected_in_order.2 "sv, cl".toList (by decide)⟩

/-- C3 counterexample: a record line with a leading space keeps that space
in the name capture, so the name is not trimmed of leading whitespace. -/
theorem name_leading_whitespace_counterexample :
    ∃ cvars exp, extract_cvars (" x : y : z :".toList) = .ok (cvars, exp) ∧
      ∃ cv ∈ cvars, cv.name.head? = some ' ' ∧ isWsp ' ' = true :=
  ⟨[⟨" x".toList, ['y'], [], []⟩], none, rfl,
    ⟨" x".toList, ['y'], [], []⟩, List.mem_cons_self _ _, rfl, rfl⟩

/-- C3 amended: for every line matched by the record grammar, the name and
default captures are trimmed of trailing whitespace only: neither ends with
a whitespace character (leading whitespace is preserved). -/
theorem name_default_no_trailing_whitespace (line a b c : List Char)
    (d : Option (List Char)) (h : regexCvar line = some (a, b, c, d)) :
    (∀ w, a.getLast? = some w → isWsp w = false) ∧
    (∀ w, b.getLast? = some w → isWsp w = false) := by
  constructor
  · exact regexCvar_fst_last_not_wsp h
  · obtain ⟨w1, u1, _, _, hs2⟩ := regexCvar_sound h
    exact seg2_fst_last_not_wsp hs2

theorem name_default_no_trailing_whitespace_witness :
    isWsp 'x' = false ∧ isWsp 'y' = false :=
  ⟨(name_default_no_trailing_whitespace ("x : y : z :".toList) ['x'] ['y'] ['z']
      none (by rfl)).1 'x' (by rfl),
    (name_default_no_trailing_whitespace ("x : y : z :".toList) ['x'] ['y'] ['z']
      none (by rfl)).2 'y' (by rfl)⟩

/-- C4 counterexample: a single summary line whose digit sequence exceeds
usize makes extraction abort with the parse panic although the summary
grammar matched only once, refuting that at most one match always returns
normally. -/
theorem single_count_aborts_counterexample :
    ((rustLines ("999999999999999999999 total convars/concommands".toList)).filterMap
        countCapture).length = 1 ∧
      extract_cvars ("999999999999999999999 total convars/concommands".toList) =
        .error .parseFailure :=
  ⟨rfl, rfl⟩

/-- C4 amended: two or more summary-line matches abort extraction with an
error and no partial result; at most one match returns normally provided
every matched capture is an ASCII digit sequence whose value fits in usize
(a non-ASCII Unicode digit or an overflowing count aborts with the parse
panic instead). -/
theorem duplicate_count_fatal (input : List Char) :
    (2 ≤ ((rustLines input).filterMap countCapture).length →
      ∃ er, extract_cvars input = .error er) ∧
    (((rustLines input).filterMap countCapture).length ≤ 1 →
      (∀ ds ∈ (rustLines input).filterMap countCapture,
        (∀ c ∈ ds, c.isDigit = true) ∧ digitsToNat ds ≤ USIZE_MAX) →
      ∃ r, extract_cvars input = .ok r) := by
  constructor
  · intro h2
    exact extractLoop_error_of_counts (rustLines input) none (Or.inr h2)
  · intro h1 hfit
    exact extractLoop_ok_of_counts (rustLines input) none (by simpa using h1) hfit

theorem duplicate_count_fatal_witness :
    (∃ er, extract_cvars
      ("1 total convars/concommands\n2 total convars/concommands".toList) =
        .error er) ∧
    (∃ r, extract_cvars ("7 total convars/concommands".toList) = .ok r) :=
  ⟨(duplicate_count_fatal _).1 (by decide),
    (duplicate_count_fatal _).2 (by decide) (by decide)⟩

/-- C5: for every record list and every index below its length, the row
after the header at that index holds the record's fields in the order name,
attributes joined with a comma, default, description (deliberately not the
header label order for the middle two columns). -/
theorem csv_row_field_order (cvars : List Cvar) (i : Nat) (h : i < cvars.length) :
    (write_cvar_csv cvars)[i + 1]? =
      some [cvars[i].name, List.intercalate [','] cvars[i].attributes,
        cvars[i].default, cvars[i].description] := by
  unfold write_cvar_csv
  rw [List.getElem?_cons_succ, List.getElem?_map, List.getElem?_eq_getElem h]
  rfl

theorem csv_row_field_order_witness :
    (write_cvar_csv [⟨"n".toList, "dv".toList, [['A'], ['B']], "ds".toList⟩])[1]? =
      some ["n".toList, "A,B".toList, "dv".toList, "ds".toList] :=
  csv_row_field_order [⟨"n".toList, "dv".toList, [['A'], ['B']], "ds".toList⟩] 0
    (by decide)

/-- C6 counterexample: the record grammar accepts an empty first capture, so
extraction can produce a record whose name is the empty string. -/
theorem empty_name_counterexample :
    ∃ cvars exp, extract_cvars (": a : b :".toList) = .ok (cvars, exp) ∧
      ∃ cv ∈ cvars, cv.name = [] :=
  ⟨[⟨[], ['a'], [], []⟩], none, rfl, ⟨[], ['a'], [], []⟩,
    List.mem_cons_self _ _, rfl⟩

/-- C6 amended: every record produced by extraction has its four fields
populated from the captures of a line matched by the record grammar (the
name is capture 1 of that line); the grammar does not make the name
nonempty. -/
theorem records_from_matched_lines (input : List Char) (cvars : List Cvar)
    (exp : Option Nat) (h : extract_cvars input = .ok (cvars, exp)) :
    ∀ cv ∈ cvars, ∃ l ∈ rustLines input, ∃ a b c d,
      regexCvar l = some (a, b, c, d) ∧ cv = mkCvar a b c d := by
  intro cv hcv
  have hch := (extract_cvars_ok h).1
  rw [hch] at hcv
  obtain ⟨l, hl, hlc⟩ := List.mem_filterMap.mp hcv
  refine ⟨l, hl, ?_⟩
  unfold lineToCvar at hlc
  rw [Option.map_eq_some'] at hlc
  obtain ⟨p, hp, hpe⟩ := hlc
  exact ⟨p.1, p.2.1, p.2.2.1, p.2.2.2, hp, hpe.symm⟩

theorem records_from_matched_lines_witness :
    ∃ l ∈ rustLines ("x : y : z :".toList), ∃ a b c d,
      regexCvar l = some (a, b, c, d) ∧
        (⟨['x'], ['y'], [], []⟩ : Cvar) = mkCvar a b c d :=
  records_from_matched_lines ("x : y : z :".toList) [⟨['x'], ['y'], [], []⟩]
    none (by rfl) ⟨['x'], ['y'], [], []⟩ (List.mem_cons_self _ _)

/-- C7: every matched record line decomposes around the three delimiters,
and the record description is the text after the third colon with one
optional single leading space removed; when capture 4 is absent the
description is the empty string. -/
theorem description_after_third_colon (line a b c : List Char)
    (d : Option (List Char)) (h : regexCvar line = some (a, b, c, d)) :
    ∃ w1 w2 w3 t,
      line = a ++ w1 ++ ':' :: ' ' :: (b ++ w2 ++ ':' :: ' ' ::
        (c ++ w3 ++ ':' :: t)) ∧
      (∀ x ∈ w1, isWsp x = true) ∧ (∀ x ∈ w2, isWsp x = true) ∧
      (∀ x ∈ w3, isWsp x = true) ∧
      (mkCvar a b c d).description = dropLeadingSpace t ∧
      (d = none → (mkCvar a b c d).description = []) := by
  obtain ⟨w1, u1, hdec1, hw1, hs2⟩ := regexCvar_sound h
  obtain ⟨w2, u2, hdec2, hw2, hs3⟩ := seg2_sound hs2
  obtain ⟨w3, t, hdec3, hw3, htl⟩ := seg3_sound hs3
  refine ⟨w1, w2, w3, t, ?_, hw1, hw2, hw3, ?_, ?_⟩
  · rw [hdec1, hdec2, hdec3]
  · rcases tailOk_sound htl with ⟨ht, hd⟩ | ⟨dd, hd, ht⟩
    · subst ht; subst hd; rfl
    · subst hd; subst ht; rfl
  · intro hdn
    subst hdn
    rfl

theorem description_after_third_colon_witness :
    ∃ w1 w2 w3 t,
      ("a : b : c : hi".toList : List Char) = ['a'] ++ w1 ++ ':' :: ' ' ::
        (['b'] ++ w2 ++ ':' :: ' ' :: (['c'] ++ w3 ++ ':' :: t)) ∧
      (∀ x ∈ w1, isWsp x = true) ∧ (∀ x ∈ w2, isWsp x = true) ∧
      (∀ x ∈ w3, isWsp x = true) ∧
      (mkCvar ['a'] ['b'] ['c'] (some "hi".toList)).description =
        dropLeadingSpace t ∧
      (some "hi".toList = none →
        (mkCvar ['a'] ['b'] ['c'] (some "hi".toList)).description = []) :=
  description_after_third_colon ("a : b : c : hi".toList) ['a'] ['b'] ['c']
    (some "hi".toList) (by rfl)

/-- C8 counterexample: the parse-failure branch is reachable in two ways.
A summary line whose digit sequence has value above the usize range matches
the grammar, yet the usize parse of the captured digits fails; and a
summary line whose count is a non-ASCII Unicode decimal digit (here the
Arabic-Indic digit three) also matches the grammar once while the usize
parse rejects it.  Both make the extractor hit the unwrap panic. -/
theorem count_parse_overflow_counterexample :
    (countCapture ("99999999999999999999 total convars/concommands".toList)).isSome
        = true ∧
    parseUsize ("99999999999999999999".toList) = none ∧
    extract_cvars ("99999999999999999999 total convars/concommands".toList) =
      .error .parseFailure ∧
    (countCapture ("٣ total convars/concommands".toList)).isSome = true ∧
    parseUsize ("٣".toList) = none ∧
    extract_cvars ("٣ total convars/concommands".toList) =
      .error .parseFailure :=
  ⟨rfl, rfl, rfl, rfl, rfl, rfl⟩

/-- C8 amended: a summary-grammar match captures a nonempty sequence of
Unicode decimal digits, and parsing it as usize succeeds exactly when all
captured digits are ASCII and the value fits in usize; a non-ASCII decimal
digit or a larger value makes the parse fail (reaching the unwrap panic). -/
theorem count_digits_parse (l ds : List Char) (h : countCapture l = some ds) :
    ds ≠ [] ∧ (∀ c ∈ ds, isNd c = true) ∧
    ((∀ c ∈ ds, c.isDigit = true) → digitsToNat ds ≤ USIZE_MAX →
      parseUsize ds = some (digitsToNat ds)) ∧
    ((∀ c ∈ ds, c.isDigit = true) → USIZE_MAX < digitsToNat ds →
      parseUsize ds = none) ∧
    ((∃ c ∈ ds, c.isDigit = false) → parseUsize ds = none) := by
  obtain ⟨hne, hnd, _⟩ := countCapture_sound h
  refine ⟨hne, hnd, ?_, ?_, ?_⟩
  · intro hascii hle
    exact (parseUsize_of_digits hne hascii).1 hle
  · intro hascii hlt
    exact (parseUsize_of_digits hne hascii).2 hlt
  · intro hex
    exact parseUsize_not_all_digits hex

theorem count_digits_parse_witness :
    parseUsize ("2".toList) = some 2 ∧ parseUsize ("٣".toList) = none :=
  ⟨(count_digits_parse ("2 total convars/concommands".toList) ("2".toList)
      (by rfl)).2.2.1 (by decide) (by decide),
    (count_digits_parse ("٣ total convars/concommands".toList)
      ("٣".toList) (by rfl)).2.2.2.2 ⟨'٣', by decide, by decide⟩⟩

/-- C9: whenever extraction returns, the record sequence is exactly one
record per line matched by the record grammar, in input order, and the
expected count is the parsed capture of the sole summary-grammar line when
one is present; all other lines contribute nothing. -/
theorem records_one_per_matching_line (input : List Char) (cvars : List Cvar)
    (exp : Option Nat) (h : extract_cvars input = .ok (cvars, exp)) :
    cvars = (rustLines input).filterMap lineToCvar ∧
    exp = ((rustLines input).filterMap countCapture).head?.map digitsToNat :=
  ⟨(extract_cvars_ok h).1, (extract_cvars_ok h).2.1⟩

theorem records_one_per_matching_line_witness :
    ([⟨"sv_cheats".toList, ['0'], ["CHEAT".toList], "Allow cheats".toList⟩,
      ⟨"fov_desired".toList, "90".toList, [], "Field of view".toList⟩]
        : List Cvar) =
      (rustLines ("sv_cheats : 0 : sv, rep, \"CHEAT\" : Allow cheats\nbanner text goes here\nfov_desired : 90 : cl : Field of view\n2 total convars/concommands".toList)).filterMap
        lineToCvar ∧
    (some 2 : Option Nat) =
      ((rustLines ("sv_cheats : 0 : sv, rep, \"CHEAT\" : Allow cheats\nbanner text goes here\nfov_desired : 90 : cl : Field of view\n2 total convars/concommands".toList)).filterMap
        countCapture).head?.map digitsToNat :=
  records_one_per_matching_line _ _ _ (by rfl)

/-- C10: every attribute string of every extracted record contains no double
quote character: the lazy quoted-text capture stops at the first closing
quote. -/
theorem attributes_quote_free (input : List Char) (cvars : List Cvar)
    (exp : Option Nat) (h : extract_cvars input = .ok (cvars, exp)) :
    ∀ cv ∈ cvars, ∀ a ∈ cv.attributes, ∀ c ∈ a, c ≠ '"' := by
  intro cv hcv a ha c hc
  have hch := (extract_cvars_ok h).1
  rw [hch] at hcv
  obtain ⟨l, hl, hlc⟩ := List.mem_filterMap.mp hcv
  unfold lineToCvar at hlc
  rw [Option.map_eq_some'] at hlc
  obtain ⟨p, hp, hpe⟩ := hlc
  subst hpe
  exact attrsFrom_mem_no_quote ha c hc

theorem attributes_quote_free_witness :
    ('A' : Char) ≠ '"' :=
  attributes_quote_free ("n : d : x, \"A\" : hi".toList)
    [⟨['n'], ['d'], [['A']], "hi".toList⟩] none (by rfl)
    ⟨['n'], ['d'], [['A']], "hi".toList⟩ (List.mem_cons_self _ _)
    ['A'] (List.mem_cons_self _ _) 'A' (List.mem_cons_self _ _)

end Cvardump
